import Mathlib

/-!
Shallow embedding of the momentum-computation and swing-detection core of
the mcm2024-c-tennis-momentum repository (src/features/momentum.py and
src/features/swings.py), together with theorems checking the repository's
natural-language specification against it.

Modelling conventions:
* a pandas numeric Series is a `List ℚ` (the spec's series are real-valued;
  rationals give exact arithmetic);
* a missing value (NaN) is `none` in `List (Option ℚ)`; it only arises
  inside the swing pipeline, where `m.diff()` puts NaN at position 0 and
  `trend.replace(0, np.nan)` introduces NaN for exact zeros;
* a pandas DataFrame is a list of named columns;
* a raised exception is the `Except.error` branch of an `Except` result.
-/

namespace Tennis

/-- `point_result.rolling(window=window, min_periods=1).mean()`:
the mean of the window of size `window` ending at `i`, using all available
points when fewer than `window` exist (embeds `rolling_momentum`,
src/features/momentum.py). -/
def rolling_momentum (point_result : List ℚ) (window : ℕ) : List ℚ :=
  (List.range point_result.length).map (fun i =>
    let seg := (point_result.take (i + 1)).drop (i + 1 - window)
    seg.sum / (seg.length : ℚ))

/-- The `adjust=False` exponential-weighted-mean recursion
`y = α·x + (1−α)·prev`, continued along the list. -/
def ewmFrom (a : ℚ) (prev : ℚ) : List ℚ → List ℚ
  | [] => []
  | x :: xs =>
    let y := a * x + (1 - a) * prev
    y :: ewmFrom a y xs

/-- `series.ewm(span=span, adjust=False).mean()`: seeded at the first
value, then `y[i] = α·x[i] + (1−α)·y[i−1]` with `α = 2/(span+1)`
(embeds `ewm_momentum`, src/features/momentum.py). -/
def ewm_momentum (series : List ℚ) (span : ℕ) : List ℚ :=
  match series with
  | [] => []
  | x :: xs => x :: ewmFrom (2 / ((span : ℚ) + 1)) x xs

/-- A DataFrame, reduced to what `compute_momentum` consults:
a list of named numeric columns. -/
structure DataFrame where
  cols : List (String × List ℚ)

/-- Column lookup, `df_match[col]` guarded by `col in df_match.columns`. -/
def DataFrame.find? (df : DataFrame) (c : String) : Option (List ℚ) :=
  (df.cols.find? (fun p => p.1 = c)).map (fun p => p.2)

/-- The error kinds of the spec's §7: `missingInput` is the `KeyError`
raised for an absent source column, `unsupportedMethod` the `ValueError`
raised for an unrecognized method selector. -/
inductive MomentumError where
  | missingInput (col : String)
  | unsupportedMethod (name : String)
  deriving DecidableEq, Repr

/-- Dispatch over the three momentum methods (embeds `compute_momentum`,
src/features/momentum.py): "rm" = rolling mean of `point_col`,
"ewm" = EWMA of `point_col`, "srv_ewm" = EWMA of `serve_adj_col`;
any other selector is an error. -/
def compute_momentum (df_match : DataFrame) (method : String)
    (window : ℕ) (span : ℕ) (point_col : String) (serve_adj_col : String) :
    Except MomentumError (List ℚ) :=
  if method = "rm" then
    match df_match.find? point_col with
    | none => .error (.missingInput point_col)
    | some s => .ok (rolling_momentum s window)
  else if method = "ewm" then
    match df_match.find? point_col with
    | none => .error (.missingInput point_col)
    | some s => .ok (ewm_momentum s span)
  else if method = "srv_ewm" then
    match df_match.find? serve_adj_col with
    | none => .error (.missingInput serve_adj_col)
    | some s => .ok (ewm_momentum s span)
  else .error (.unsupportedMethod method)

/-- `SwingParams` (src/features/swings.py): the detection parameters. -/
structure SwingParams where
  trend_span : ℕ := 5
  amp_q : ℚ := 85 / 100
  cool : ℕ := 15
  fill_zero_trend : Bool := true
  deriving DecidableEq, Repr

/-- `m.diff()` without its leading NaN: the list
`[m[1]−m[0], …, m[n−1]−m[n−2]]`. -/
def diffs : List ℚ → List ℚ
  | [] => []
  | [_] => []
  | x :: y :: xs => (y - x) :: diffs (y :: xs)

/-- `m.diff().ewm(span=trend_span, adjust=False).mean()`: position 0 is
NaN (`none`); the EWMA is seeded at the first slope and runs the
`adjust=False` recursion over the rest. -/
def trendRaw (span : ℕ) (m : List ℚ) : List (Option ℚ) :=
  match m with
  | [] => []
  | _ :: _ => none :: (ewm_momentum (diffs m) span).map some

/-- Forward fill (`Series.ffill()`): each `none` takes the nearest
preceding non-`none` value, `prev` standing for everything before the
list; with no preceding value it stays `none`. -/
def ffillFrom (prev : Option ℚ) : List (Option ℚ) → List (Option ℚ)
  | [] => []
  | none :: xs => prev :: ffillFrom prev xs
  | some x :: xs => some x :: ffillFrom (some x) xs

/-- `trend.replace(0, np.nan).ffill()`: exact zeros become missing, then
forward fill. -/
def fillZero (t : List (Option ℚ)) : List (Option ℚ) :=
  ffillFrom none (t.map (fun x => if x = some 0 then none else x))

/-- The trend stage of `detect_swings`: smoothed slope, forward-filled on
zeros when `fill_zero_trend` is set. -/
def trendOf (p : SwingParams) (m : List ℚ) : List (Option ℚ) :=
  if p.fill_zero_trend then fillZero (trendRaw p.trend_span m)
  else trendRaw p.trend_span m

/-- `x > c` under pandas NaN semantics: any comparison with NaN is false. -/
def optGT (x : Option ℚ) (c : ℚ) : Bool :=
  match x with | none => false | some v => c < v

/-- `x < c` under pandas NaN semantics. -/
def optLT (x : Option ℚ) (c : ℚ) : Bool :=
  match x with | none => false | some v => v < c

/-- `x ≤ c` under pandas NaN semantics. -/
def optLE (x : Option ℚ) (c : ℚ) : Bool :=
  match x with | none => false | some v => v ≤ c

/-- `x ≥ c` under pandas NaN semantics. -/
def optGE (x : Option ℚ) (c : ℚ) : Bool :=
  match x with | none => false | some v => c ≤ v

/-- The reversal test at position `i`:
`(trend.shift(1) > 0 & trend ≤ 0) | (trend.shift(1) < 0 & trend ≥ 0)`;
`trend.shift(1)` at position 0 is NaN. -/
def revAt (t : List (Option ℚ)) (i : ℕ) : Bool :=
  let prev : Option ℚ := if i = 0 then none else (t.getD (i - 1) none)
  let cur : Option ℚ := t.getD i none
  (optGT prev 0 && optLE cur 0) || (optLT prev 0 && optGE cur 0)

/-- `Series.quantile(q)` with the default linear interpolation: with the
values sorted ascending and `h = q·(n−1)`, the result is
`s[⌊h⌋] + (h−⌊h⌋)·(s[⌊h⌋+1] − s[⌊h⌋])`. -/
def quantileLinear (q : ℚ) (xs : List ℚ) : ℚ :=
  let s := xs.insertionSort (· ≤ ·)
  let h : ℚ := q * ((xs.length : ℚ) - 1)
  let f : ℕ := (⌊h⌋).toNat
  let a := s.getD f 0
  let b := s.getD (f + 1) a
  a + (h - (f : ℚ)) * (b - a)

/-- Split off the initial run of consecutive integers continuing `prev`:
returns the run (not containing `prev`) and the remainder of the list. -/
def takeRun (prev : ℕ) : List ℕ → List ℕ × List ℕ
  | [] => ([], [])
  | x :: xs =>
    if x = prev + 1 then
      let r := takeRun x xs
      (x :: r.1, r.2)
    else ([], x :: xs)

theorem takeRun_append (prev : ℕ) (l : List ℕ) :
    (takeRun prev l).1 ++ (takeRun prev l).2 = l := by
  induction l generalizing prev with
  | nil => rfl
  | cons x xs ih =>
    by_cases h : x = prev + 1 <;> simp [takeRun, h, ih]

theorem takeRun_snd_length_le (prev : ℕ) (l : List ℕ) :
    (takeRun prev l).2.length ≤ l.length := by
  conv_rhs => rw [← takeRun_append prev l]
  simp

/-- Python's `max(group, key=lambda p: abs(m.iloc[p]))`: fold keeping the
current best, replacing it only on a strictly larger key, so the first
maximal element wins. -/
def maxAbsFirst (m : List ℚ) (best : ℕ) : List ℕ → ℕ
  | [] => best
  | x :: xs =>
    maxAbsFirst m (if |m.getD best 0| < |m.getD x 0| then x else best) xs

/-- The grouping loop of `_compress_consecutive_by_max_abs`: split the
sorted position list into maximal runs of consecutive integers and keep
the first position of maximal `|m|` in each run. -/
def compressGo (m : List ℚ) : List ℕ → List ℕ
  | [] => []
  | x :: xs =>
    maxAbsFirst m x (takeRun x xs).1 :: compressGo m (takeRun x xs).2
termination_by l => l.length
decreasing_by
  exact Nat.lt_succ_of_le (takeRun_snd_length_le x xs)

/-- The maximal runs of consecutive integers in a sorted position list:
the decomposition whose representatives the compression step keeps. -/
def runs : List ℕ → List (List ℕ)
  | [] => []
  | x :: xs => (x :: (takeRun x xs).1) :: runs (takeRun x xs).2
termination_by l => l.length
decreasing_by
  exact Nat.lt_succ_of_le (takeRun_snd_length_le x xs)

/-- `_compress_consecutive_by_max_abs` (src/features/swings.py): the
positions are first sorted, as in the source. -/
def compress_consecutive_by_max_abs (m : List ℚ) (pos_idx : List ℕ) : List ℕ :=
  compressGo m (pos_idx.insertionSort (· ≤ ·))

/-- The loop of `_apply_cooldown_keep_max_abs`: `last` is the running
`final[-1]`; a far-enough position is appended, a too-close one replaces
`last` exactly when its `|m|` is strictly larger. -/
def cooldownGo (m : List ℚ) (cool : ℕ) (last : ℕ) : List ℕ → List ℕ
  | [] => [last]
  | p :: ps =>
    if cool ≤ p - last then last :: cooldownGo m cool p ps
    else if |m.getD last 0| < |m.getD p 0| then cooldownGo m cool p ps
    else cooldownGo m cool last ps

/-- `_apply_cooldown_keep_max_abs` (src/features/swings.py). -/
def apply_cooldown_keep_max_abs (m : List ℚ) (keep_pos : List ℕ) (cool : ℕ) :
    List ℕ :=
  match keep_pos.insertionSort (· ≤ ·) with
  | [] => []
  | x :: xs => cooldownGo m cool x xs

/-- What `detect_swings` returns: the 0/1 flag series aligned with `m`,
the kept integer positions, and the amplitude threshold used. -/
structure SwingResult where
  swing_flag : List ℕ
  swing_idx : List ℕ
  amp_thr : ℚ
  deriving DecidableEq, Repr

/-- The candidate stage of `detect_swings`:
`rev & (m.abs() > amp_thr)`, listed as integer positions. -/
def candidates (p : SwingParams) (m : List ℚ) (amp_thr : ℚ) : List ℕ :=
  (List.range m.length).filter
    (fun i => revAt (trendOf p m) i && decide (amp_thr < |m.getD i 0|))

/-- Step 3's threshold: `float(m.abs().quantile(params.amp_q))`. -/
def ampThrOf (p : SwingParams) (m : List ℚ) : ℚ :=
  quantileLinear p.amp_q (m.map (fun x => |x|))

/-- Steps 4 and 5 applied to the candidate positions: the kept swing
positions of `detect_swings`. -/
def keepOf (p : SwingParams) (m : List ℚ) : List ℕ :=
  apply_cooldown_keep_max_abs m
    (compress_consecutive_by_max_abs m (candidates p m (ampThrOf p m))) p.cool

/-- `detect_swings` (src/features/swings.py): raises on a series with no
usable values (for a real-valued series, exactly the empty one), then runs
trend → reversal → amplitude filter → run compression → cooldown.
The error value stands for `ValueError("Momentum series is all NaN.")`. -/
def detect_swings (m : List ℚ) (p : SwingParams) : Except Unit SwingResult :=
  if m.isEmpty then .error () else
  .ok ⟨(List.range m.length).map (fun i => if i ∈ keepOf p m then 1 else 0),
       keepOf p m, ampThrOf p m⟩

/-- Three positions `y` strictly between `p` and `x` (in either order). -/
def strictlyBetween (y p x : ℚ) : Prop :=
  (p < y ∧ y < x) ∨ (x < y ∧ y < p)

instance (y p x : ℚ) : Decidable (strictlyBetween y p x) := by
  unfold strictlyBetween; infer_instance

/-- The nearest preceding non-zero value: scanning the first `i` entries of
`t` in order, the last one of the form `some v` with `v ≠ 0` (`acc` is the
running answer); `none` when no such entry exists. -/
def lastNZ (acc : Option ℚ) : List (Option ℚ) → ℕ → Option ℚ
  | _, 0 => acc
  | [], _ + 1 => acc
  | x :: xs, k + 1 =>
    lastNZ (match x with
            | some v => if v = 0 then acc else some v
            | none => acc) xs k

/-! ## Theorems -/

/-- C7: `detect_swings` fails with the empty-series error exactly when its
input momentum series has zero usable values — for a real-valued series,
exactly when it is empty — and otherwise does not raise this error. -/
theorem detect_swings_error_iff (p : SwingParams) (m : List ℚ) :
    detect_swings m p = .error () ↔ m = [] := by
  cases m <;> simp [detect_swings]

/-- Witness for C7 at the concrete empty input. -/
theorem detect_swings_error_iff_witness :
    detect_swings [] {} = .error () :=
  (detect_swings_error_iff {} []).mpr rfl

/-- C6: `compute_momentum` fails with the missing-input error when the
source column its method needs is absent (`point_col` for "rm"/"ewm",
`serve_adj_col` for "srv_ewm"), fails with the unsupported-method error
for any other method name, and in every failure case produces no result. -/
theorem compute_momentum_errors (df : DataFrame) (method : String)
    (window span : ℕ) (point_col serve_adj_col : String) :
    ((method = "rm" ∨ method = "ewm") → df.find? point_col = none →
      compute_momentum df method window span point_col serve_adj_col
        = .error (.missingInput point_col)) ∧
    (method = "srv_ewm" → df.find? serve_adj_col = none →
      compute_momentum df method window span point_col serve_adj_col
        = .error (.missingInput serve_adj_col)) ∧
    (method ≠ "rm" → method ≠ "ewm" → method ≠ "srv_ewm" →
      compute_momentum df method window span point_col serve_adj_col
        = .error (.unsupportedMethod method)) ∧
    (∀ e, compute_momentum df method window span point_col serve_adj_col
        = .error e →
      ∀ out, compute_momentum df method window span point_col serve_adj_col
        ≠ .ok out) := by
  refine ⟨?_, ?_, ?_, ?_⟩
  · rintro (h | h) hcol <;> subst h <;> simp [compute_momentum, hcol]
  · rintro h hcol
    subst h
    simp [compute_momentum, hcol]
  · intro h1 h2 h3
    simp [compute_momentum, h1, h2, h3]
  · intro e he out hok
    rw [he] at hok
    exact absurd hok (by simp)

/-- Witness for C6: both failure modes at concrete inputs. -/
theorem compute_momentum_errors_witness :
    compute_momentum ⟨[]⟩ "rm" 15 25 "point_result" "serve_adj_p1"
      = .error (.missingInput "point_result") ∧
    compute_momentum ⟨[]⟩ "srv_ewm" 15 25 "point_result" "serve_adj_p1"
      = .error (.missingInput "serve_adj_p1") ∧
    compute_momentum ⟨[]⟩ "nope" 15 25 "point_result" "serve_adj_p1"
      = .error (.unsupportedMethod "nope") :=
  ⟨(compute_momentum_errors ⟨[]⟩ "rm" 15 25 "point_result" "serve_adj_p1").1
      (Or.inl rfl) rfl,
   (compute_momentum_errors ⟨[]⟩ "srv_ewm" 15 25 "point_result"
      "serve_adj_p1").2.1 rfl rfl,
   (compute_momentum_errors ⟨[]⟩ "nope" 15 25 "point_result"
      "serve_adj_p1").2.2.1 (by decide) (by decide) (by decide)⟩

theorem sum_drop_take (l : List ℚ) : ∀ (d k : ℕ), d + k ≤ l.length →
    ((l.drop d).take k).sum = ∑ j ∈ Finset.range k, l.getD (d + j) 0 := by
  induction l with
  | nil =>
    intro d k h
    have hk : k = 0 := by simpa using Nat.le_zero.mp (Nat.le_trans (Nat.le_add_left k d) h)
    subst hk
    simp
  | cons x xs ih =>
    intro d k h
    match d with
    | 0 =>
      match k with
      | 0 => simp
      | k' + 1 =>
        have hk : 0 + k' ≤ xs.length := by
          simp only [List.length_cons] at h
          omega
        have hx := ih 0 k' hk
        simp only [List.drop_zero] at hx
        rw [List.drop_zero, List.take_succ_cons, List.sum_cons, Finset.sum_range_succ']
        simp only [Nat.zero_add] at hx ⊢
        simp only [List.getD_cons_succ, List.getD_cons_zero, Nat.add_sub_cancel]
        rw [hx]
        ring
    | d' + 1 =>
      have hd : d' + k ≤ xs.length := by
        simp only [List.length_cons] at h
        omega
      rw [List.drop_succ_cons, ih d' k hd]
      refine Finset.sum_congr rfl ?_
      intro j _
      have hj : d' + 1 + j = (d' + j) + 1 := by omega
      rw [hj, List.getD_cons_succ]

theorem rolling_momentum_getD (points : List ℚ) (window i : ℕ)
    (h : i < points.length) :
    (rolling_momentum points window).getD i 0
      = ((points.take (i + 1)).drop (i + 1 - window)).sum
        / (((points.take (i + 1)).drop (i + 1 - window)).length : ℚ) := by
  simp [rolling_momentum, List.getD, List.getElem?_map, List.getElem?_range, h]

theorem rolling_seg_length (points : List ℚ) (window i : ℕ)
    (h : i < points.length) :
    ((points.take (i + 1)).drop (i + 1 - window)).length
      = min (i + 1) window := by
  simp only [List.length_drop, List.length_take]
  omega

/-- C8: for `window ≥ 1`, `rolling_momentum` preserves length, each output
value is the mean of the input over the window ending at `i` (all
available points when fewer than `window` exist), and `window = 1` is the
identity transform. -/
theorem rolling_momentum_spec (points : List ℚ) (window : ℕ)
    (hw : 1 ≤ window) :
    (rolling_momentum points window).length = points.length ∧
    (∀ i < points.length,
      (rolling_momentum points window).getD i 0 * ((min (i + 1) window : ℕ) : ℚ)
        = ∑ j ∈ Finset.Icc (i + 1 - window) i, points.getD j 0) ∧
    (window = 1 → rolling_momentum points window = points) := by
  have hlen : (rolling_momentum points window).length = points.length := by
    simp [rolling_momentum]
  have hmean : ∀ i < points.length,
      (rolling_momentum points window).getD i 0 * ((min (i + 1) window : ℕ) : ℚ)
        = ∑ j ∈ Finset.Icc (i + 1 - window) i, points.getD j 0 := by
    intro i hi
    have hseg : (points.take (i + 1)).drop (i + 1 - window)
        = (points.drop (i + 1 - window)).take ((i + 1) - (i + 1 - window)) := by
      rw [List.drop_take]
    have hlen2 := rolling_seg_length points window i hi
    have hk : (i + 1) - (i + 1 - window) = min (i + 1) window := by omega
    have hsum : ((points.take (i + 1)).drop (i + 1 - window)).sum
        = ∑ j ∈ Finset.range (min (i + 1) window),
            points.getD ((i + 1 - window) + j) 0 := by
      rw [hseg, hk]
      exact sum_drop_take points (i + 1 - window) (min (i + 1) window) (by omega)
    have hpos : (0 : ℚ) < ((min (i + 1) window : ℕ) : ℚ) := by
      have : 1 ≤ min (i + 1) window := by omega
      exact_mod_cast Nat.lt_of_lt_of_le Nat.zero_lt_one this
    rw [rolling_momentum_getD points window i hi, hlen2,
      div_mul_cancel₀ _ (ne_of_gt hpos), hsum, ← Nat.Ico_succ_right,
      Finset.sum_Ico_eq_sum_range]
    have hc : i + 1 - (i + 1 - window) = min (i + 1) window := by omega
    rw [hc]
  refine ⟨hlen, hmean, ?_⟩
  intro h1
  subst h1
  refine List.ext_getElem (by simpa using hlen) ?_
  intro i h1 h2
  have hval : (rolling_momentum points 1).getD i 0 = points.getD i 0 := by
    have hm := hmean i h2
    have hmin : min (i + 1) 1 = 1 := by omega
    rw [hmin] at hm
    simp only [Nat.cast_one, mul_one] at hm
    have hicc : Finset.Icc (i + 1 - 1) i = {i} := by
      have hii : i + 1 - 1 = i := by omega
      rw [hii, Finset.Icc_self]
    rw [hicc, Finset.sum_singleton] at hm
    exact hm
  rw [← List.getD_eq_getElem (rolling_momentum points 1) 0 h1,
    ← List.getD_eq_getElem points 0 h2]
  exact hval

/-- Witness for C8 at a concrete input: window 1 is the identity. -/
theorem rolling_momentum_spec_witness :
    rolling_momentum [(3 : ℚ), 4, 5] 1 = [3, 4, 5] :=
  (rolling_momentum_spec [3, 4, 5] 1 (by decide)).2.2 rfl

theorem ewmFrom_getD (a : ℚ) : ∀ (xs : List ℚ) (prev : ℚ) (i : ℕ),
    i < xs.length →
    (ewmFrom a prev xs).getD i 0
      = a * xs.getD i 0 + (1 - a) * ((prev :: ewmFrom a prev xs).getD i 0) := by
  intro xs
  induction xs with
  | nil => intro prev i h; simp at h
  | cons x xs ih =>
    intro prev i h
    match i with
    | 0 => simp [ewmFrom]
    | j + 1 =>
      simp only [ewmFrom, List.getD_cons_succ]
      exact ih _ j (by simpa using h)

theorem between_of_convex (a p x : ℚ) (h0 : 0 < a) (h1 : a < 1)
    (hne : p ≠ x) : strictlyBetween (a * x + (1 - a) * p) p x := by
  rcases lt_or_gt_of_ne hne with h | h
  · exact Or.inl ⟨by nlinarith, by nlinarith⟩
  · exact Or.inr ⟨by nlinarith, by nlinarith⟩

/-- Counterexample for C4: at `series = [1, 1]`, `span = 2` (so
`α = 2/3 ∉ {0, 1}`), `output[1] = 1` equals both `output[0]` and
`series[1]` instead of lying strictly between them, so the claimed
"strictly between, or equal only when α is 0 or 1" fails. -/
theorem ewm_momentum_between_cex :
    ¬ (strictlyBetween ((ewm_momentum [1, 1] 2).getD 1 0)
         ((ewm_momentum [1, 1] 2).getD 0 0) (([1, 1] : List ℚ).getD 1 0) ∨
       ((2 / ((2 : ℚ) + 1) = 0 ∨ 2 / ((2 : ℚ) + 1) = 1) ∧
        ((ewm_momentum [1, 1] 2).getD 1 0 = (ewm_momentum [1, 1] 2).getD 0 0 ∨
         (ewm_momentum [1, 1] 2).getD 1 0 = ([1, 1] : List ℚ).getD 1 0))) := by
  have he : ewm_momentum [(1 : ℚ), 1] 2 = [1, 1] := by
    norm_num [ewm_momentum, ewmFrom]
  rw [he]
  norm_num [strictlyBetween]

/-- C4 (amended): `ewm_momentum` is the non-adjusted recursion with
`α = 2/(span+1)`: `output[0] = series[0]` and
`output[i] = α·series[i] + (1−α)·output[i−1]`; for `i ≥ 1`, when
`output[i−1] = series[i]` the output equals that common value, and
otherwise it equals `series[i]` when `span = 1` (α = 1) and lies strictly
between `output[i−1]` and `series[i]` when `span ≥ 2` (0 < α < 1). -/
theorem ewm_momentum_spec (series : List ℚ) (span : ℕ)
    (hs : 1 ≤ span) (hne : series ≠ []) :
    (ewm_momentum series span).length = series.length ∧
    (ewm_momentum series span).getD 0 0 = series.getD 0 0 ∧
    ∀ i, 1 ≤ i → i < series.length →
      ((ewm_momentum series span).getD i 0
         = (2 / ((span : ℚ) + 1)) * series.getD i 0
           + (1 - 2 / ((span : ℚ) + 1)) * (ewm_momentum series span).getD (i - 1) 0) ∧
      ((ewm_momentum series span).getD (i - 1) 0 = series.getD i 0 →
        (ewm_momentum series span).getD i 0 = series.getD i 0) ∧
      ((ewm_momentum series span).getD (i - 1) 0 ≠ series.getD i 0 →
        (span = 1 → (ewm_momentum series span).getD i 0 = series.getD i 0) ∧
        (2 ≤ span → strictlyBetween ((ewm_momentum series span).getD i 0)
          ((ewm_momentum series span).getD (i - 1) 0) (series.getD i 0))) := by
  match series with
  | [] => exact absurd rfl hne
  | s :: xs =>
    set a : ℚ := 2 / ((span : ℚ) + 1) with ha
    have hlen : (ewm_momentum (s :: xs) span).length = (s :: xs).length := by
      have : ∀ (ys : List ℚ) (prev : ℚ), (ewmFrom a prev ys).length = ys.length := by
        intro ys
        induction ys with
        | nil => intro prev; rfl
        | cons y ys ih => intro prev; simp [ewmFrom, ih]
      simp [ewm_momentum, this]
    refine ⟨hlen, rfl, ?_⟩
    intro i h1 h2
    obtain ⟨j, rfl⟩ : ∃ j, i = j + 1 := ⟨i - 1, by omega⟩
    have hj : j < xs.length := by simpa using h2
    have hrec : (ewm_momentum (s :: xs) span).getD (j + 1) 0
        = a * (s :: xs).getD (j + 1) 0
          + (1 - a) * (ewm_momentum (s :: xs) span).getD j 0 := by
      have hgd := ewmFrom_getD a xs s j hj
      simpa [ewm_momentum, List.getD_cons_succ] using hgd
    have hsimp : j + 1 - 1 = j := by omega
    rw [hsimp]
    refine ⟨hrec, ?_, ?_⟩
    · intro heq
      rw [hrec, heq]
      ring
    · intro hneq
      constructor
      · intro h1span
        subst h1span
        have ha1 : a = 1 := by norm_num [ha]
        rw [hrec, ha1]
        ring
      · intro h2span
        have h0 : 0 < a := by
          rw [ha]
          positivity

        have hlt : a < 1 := by
          rw [ha, div_lt_one (by positivity)]
          have : (2 : ℚ) ≤ (span : ℚ) := by exact_mod_cast h2span
          linarith
        rw [hrec]
        exact between_of_convex a _ _ h0 hlt hneq

/-- Witness for C4 at `series = [1, 4]`, `span = 3` (α = 1/2): the second
output value 5/2 lies strictly between 1 and 4. -/
theorem ewm_momentum_spec_witness :
    (ewm_momentum [(1 : ℚ), 4] 3).getD 0 0 = 1 ∧
    strictlyBetween ((ewm_momentum [(1 : ℚ), 4] 3).getD 1 0)
      ((ewm_momentum [(1 : ℚ), 4] 3).getD 0 0) (([(1 : ℚ), 4]).getD 1 0) :=
  ⟨(ewm_momentum_spec [1, 4] 3 (by norm_num) (by simp)).2.1,
   (((ewm_momentum_spec [1, 4] 3 (by norm_num) (by simp)).2.2 1
      (by norm_num) (by norm_num)).2.2
      (by norm_num [ewm_momentum, ewmFrom])).2 (by norm_num)⟩

theorem ffill_fillZero_getD : ∀ (t : List (Option ℚ)) (acc : Option ℚ) (i : ℕ),
    i < t.length → (t.getD i none = some 0 ∨ t.getD i none = none) →
    (ffillFrom acc (t.map (fun x => if x = some 0 then none else x))).getD i none
      = lastNZ acc t i := by
  intro t
  induction t with
  | nil => intro acc i h _; simp at h
  | cons x xs ih =>
    intro acc i h hz
    match x, i with
    | none, 0 => simp [ffillFrom, lastNZ]
    | some v, 0 =>
      have hv : v = 0 := by
        rcases hz with hz | hz
        · simpa using hz
        · simp at hz
      subst hv
      simp [ffillFrom, lastNZ]
    | none, j + 1 =>
      have hj : j < xs.length := by simpa using h
      have hzj : xs.getD j none = some 0 ∨ xs.getD j none = none := by
        simpa using hz
      simpa [ffillFrom, lastNZ] using ih acc j hj hzj
    | some v, j + 1 =>
      have hj : j < xs.length := by simpa using h
      have hzj : xs.getD j none = some 0 ∨ xs.getD j none = none := by
        simpa using hz
      by_cases hv : v = 0
      · subst hv
        simpa [ffillFrom, lastNZ] using ih acc j hj hzj
      · simpa [ffillFrom, lastNZ, hv] using ih (some v) j hj hzj

/-- Counterexample for C2: for the momentum series `[5, 5]` the smoothed
trend is `[NaN, 0]`; the zero at position 1 has no preceding non-zero
value, and after `replace(0, nan).ffill()` it is `NaN` (missing), not
`0` as the claim states. -/
theorem fill_zero_trend_cex :
    ¬ (∀ i, i < (trendRaw 5 [5, 5]).length →
        (trendRaw 5 [5, 5]).getD i none = some 0 →
        (fillZero (trendRaw 5 [5, 5])).getD i none
          = (match lastNZ none (trendRaw 5 [5, 5]) i with
             | some v => some v
             | none => some 0)) := by
  intro h
  have e1 : trendRaw 5 [(5 : ℚ), 5] = [none, some 0] := by
    norm_num [trendRaw, diffs, ewm_momentum, ewmFrom]
  have h2 := h 1 (by rw [e1]; norm_num) (by rw [e1]; rfl)
  rw [e1] at h2
  have e2 : fillZero [none, some (0 : ℚ)] = [none, none] := by
    norm_num [fillZero, ffillFrom]
  have e3 : lastNZ none [none, some (0 : ℚ)] 1 = none := by
    norm_num [lastNZ]
  rw [e2, e3] at h2
  simp at h2

/-- C2 (amended): when `fill_zero_trend` is set, every smoothed-trend
value exactly equal to 0 is replaced by the nearest preceding non-zero
trend value; a zero trend value with no preceding non-zero value becomes
missing (NaN), so every downstream sign comparison at such a position is
false. -/
theorem fill_zero_trend_spec (p : SwingParams) (m : List ℚ)
    (hfill : p.fill_zero_trend = true) (i : ℕ)
    (hi : i < (trendRaw p.trend_span m).length)
    (h0 : (trendRaw p.trend_span m).getD i none = some 0) :
    trendOf p m = fillZero (trendRaw p.trend_span m) ∧
    (trendOf p m).getD i none = lastNZ none (trendRaw p.trend_span m) i ∧
    (lastNZ none (trendRaw p.trend_span m) i = none →
      optGT ((trendOf p m).getD i none) 0 = false ∧
      optLT ((trendOf p m).getD i none) 0 = false ∧
      optLE ((trendOf p m).getD i none) 0 = false ∧
      optGE ((trendOf p m).getD i none) 0 = false) := by
  have ht : trendOf p m = fillZero (trendRaw p.trend_span m) := by
    simp [trendOf, hfill]
  have hv :
      (fillZero (trendRaw p.trend_span m)).getD i none
        = lastNZ none (trendRaw p.trend_span m) i :=
    ffill_fillZero_getD (trendRaw p.trend_span m) none i hi (Or.inl h0)
  refine ⟨ht, by rw [ht]; exact hv, ?_⟩
  intro hnone
  rw [ht, hv, hnone]
  simp [optGT, optLT, optLE, optGE]

/-- Witness for C2 (amended): for `m = [0, 1, 1]` with `trend_span = 1`
the trend is `[NaN, 1, 0]`, and the zero at position 2 is forward-filled
with the preceding non-zero value 1. -/
theorem fill_zero_trend_spec_witness :
    (trendOf ⟨1, 1 / 2, 2, true⟩ [0, 1, 1]).getD 2 none
      = lastNZ none (trendRaw 1 [0, 1, 1]) 2 :=
  (fill_zero_trend_spec ⟨1, 1 / 2, 2, true⟩ [0, 1, 1] rfl 2
    (by norm_num [trendRaw, diffs, ewm_momentum, ewmFrom])
    (by norm_num [trendRaw, diffs, ewm_momentum, ewmFrom])).2.1

theorem sortedSelf (l : List ℕ) (h : List.Pairwise (· < ·) l) :
    l.insertionSort (· ≤ ·) = l :=
  List.Sorted.insertionSort_eq (h.imp le_of_lt)

set_option maxHeartbeats 1000000 in
theorem maxAbsFirst_mem (m : List ℚ) : ∀ (l : List ℕ) (b : ℕ),
    maxAbsFirst m b l ∈ b :: l := by
  intro l
  induction l with
  | nil => intro b; simp [maxAbsFirst]
  | cons x xs ih =>
    intro b
    by_cases h : |m.getD b 0| < |m.getD x 0|
    · rw [maxAbsFirst, if_pos h]
      exact List.mem_cons_of_mem b (ih x)
    · rw [maxAbsFirst, if_neg h]
      rcases List.mem_cons.mp (ih b) with h2 | h2
      · rw [h2]
        exact List.mem_cons_self b _
      · exact List.mem_cons_of_mem b (List.mem_cons_of_mem x h2)

theorem takeRun_fst_subset (prev : ℕ) (l : List ℕ) :
    ∀ a ∈ (takeRun prev l).1, a ∈ l := by
  intro a ha
  have h : a ∈ (takeRun prev l).1 ++ (takeRun prev l).2 :=
    List.mem_append_left _ ha
  rwa [takeRun_append] at h

theorem takeRun_snd_subset (prev : ℕ) (l : List ℕ) :
    ∀ a ∈ (takeRun prev l).2, a ∈ l := by
  intro a ha
  have h : a ∈ (takeRun prev l).1 ++ (takeRun prev l).2 :=
    List.mem_append_right _ ha
  rwa [takeRun_append] at h

theorem takeRun_snd_sublist (prev : ℕ) (l : List ℕ) :
    (takeRun prev l).2.Sublist l := by
  have h : (takeRun prev l).2.Sublist ((takeRun prev l).1 ++ (takeRun prev l).2) :=
    List.sublist_append_right _ _
  rwa [takeRun_append] at h

theorem takeRun_sep : ∀ (l : List ℕ) (prev : ℕ),
    List.Pairwise (· < ·) (prev :: l) →
    ∀ b ∈ (takeRun prev l).2, ∀ a ∈ prev :: (takeRun prev l).1, a + 1 < b := by
  intro l
  induction l with
  | nil => intro prev _ b hb; simp [takeRun] at hb
  | cons x xs ih =>
    intro prev hp b hb a ha
    have hpx : prev < x := (List.pairwise_cons.mp hp).1 x (List.mem_cons_self x xs)
    by_cases h : x = prev + 1
    · simp only [takeRun, if_pos h] at hb ha
      have ihx := ih x (List.Pairwise.of_cons hp) b hb
      rcases List.mem_cons.mp ha with h2 | h2
      · have := ihx x (List.mem_cons_self x _)
        omega
      · exact ihx a h2
    · simp only [takeRun, if_neg h] at hb ha
      rcases List.mem_cons.mp ha with h2 | h2
      · subst h2
        rcases List.mem_cons.mp hb with h3 | h3
        · omega
        · have := (List.pairwise_cons.mp (List.Pairwise.of_cons hp)).1 b h3
          omega
      · simp at h2

theorem takeRun_chain : ∀ (l : List ℕ) (prev : ℕ),
    List.Chain (fun a b => b = a + 1) prev (takeRun prev l).1 := by
  intro l
  induction l with
  | nil => intro prev; simp [takeRun]
  | cons x xs ih =>
    intro prev
    by_cases h : x = prev + 1
    · simp only [takeRun, if_pos h]
      exact List.Chain.cons h (ih x)
    · simp only [takeRun, if_neg h]
      exact List.Chain.nil

theorem compressGo_sub (m : List ℚ) : ∀ (l : List ℕ),
    ∀ y ∈ compressGo m l, y ∈ l := by
  intro l
  induction l using compressGo.induct m with
  | case1 => simp [compressGo]
  | case2 x xs ih =>
    intro y hy
    rw [compressGo] at hy
    rcases List.mem_cons.mp hy with h | h
    · have hy2 : y ∈ x :: (takeRun x xs).1 := by
        rw [h]
        exact maxAbsFirst_mem m (takeRun x xs).1 x
      rcases List.mem_cons.mp hy2 with h2 | h2
      · rw [h2]
        exact List.mem_cons_self x xs
      · exact List.mem_cons_of_mem x (takeRun_fst_subset x xs _ h2)
    · exact List.mem_cons_of_mem x (takeRun_snd_subset x xs _ (ih y h))

theorem compressGo_pairwise (m : List ℚ) : ∀ (l : List ℕ),
    List.Pairwise (· < ·) l → List.Pairwise (· < ·) (compressGo m l) := by
  intro l
  induction l using compressGo.induct m with
  | case1 => intro _; simp [compressGo]
  | case2 x xs ih =>
    intro hp
    rw [compressGo]
    refine List.pairwise_cons.mpr ⟨?_, ?_⟩
    · intro b hb
      have hbrest := compressGo_sub m _ b hb
      have := takeRun_sep xs x hp b hbrest _ (maxAbsFirst_mem m (takeRun x xs).1 x)
      omega
    · exact ih (hp.sublist ((takeRun_snd_sublist x xs).cons x))

theorem cooldownGo_spec (m : List ℚ) (cool : ℕ) : ∀ (ps : List ℕ) (last : ℕ),
    List.Pairwise (· < ·) (last :: ps) →
    List.Chain' (fun a b => a < b ∧ cool ≤ b - a) (cooldownGo m cool last ps) ∧
    ∀ y ∈ cooldownGo m cool last ps, last ≤ y ∧ y ∈ last :: ps := by
  intro ps
  induction ps with
  | nil =>
    intro last _
    constructor
    · simp [cooldownGo]
    · intro y hy
      simp only [cooldownGo, List.mem_singleton] at hy
      subst hy
      simp
  | cons p ps ih =>
    intro last hp
    have hlp : last < p := (List.pairwise_cons.mp hp).1 p (List.mem_cons_self p ps)
    rw [cooldownGo]
    by_cases hc : cool ≤ p - last
    · rw [if_pos hc]
      obtain ⟨hch, hmem⟩ := ih p (List.Pairwise.of_cons hp)
      constructor
      · rw [List.chain'_cons']
        refine ⟨?_, hch⟩
        intro b hb
        obtain ⟨hpb, _⟩ := hmem b (List.mem_of_mem_head? hb)
        exact ⟨by omega, by omega⟩
      · intro y hy
        rcases List.mem_cons.mp hy with h | h
        · subst h; simp
        · obtain ⟨hpy, hymem⟩ := hmem y h
          exact ⟨by omega, List.mem_cons_of_mem _ hymem⟩
    · rw [if_neg hc]
      by_cases habs : |m.getD last 0| < |m.getD p 0|
      · rw [if_pos habs]
        obtain ⟨hch, hmem⟩ := ih p (List.Pairwise.of_cons hp)
        refine ⟨hch, ?_⟩
        intro y hy
        obtain ⟨hpy, hymem⟩ := hmem y hy
        exact ⟨by omega, List.mem_cons_of_mem _ hymem⟩
      · rw [if_neg habs]
        have hp2 : List.Pairwise (· < ·) (last :: ps) :=
          hp.sublist (List.Sublist.cons₂ last (List.sublist_cons_self p ps))
        obtain ⟨hch, hmem⟩ := ih last hp2
        refine ⟨hch, ?_⟩
        intro y hy
        obtain ⟨hpy, hymem⟩ := hmem y hy
        refine ⟨hpy, ?_⟩
        rcases List.mem_cons.mp hymem with h | h
        · exact h ▸ List.mem_cons_self _ _
        · exact List.mem_cons_of_mem _ (List.mem_cons_of_mem _ h)

theorem detect_swings_ok_eq (p : SwingParams) (m : List ℚ) (r : SwingResult)
    (h : detect_swings m p = .ok r) :
    r.swing_idx = keepOf p m ∧ r.amp_thr = ampThrOf p m := by
  rw [detect_swings] at h
  split at h
  · exact absurd h (by simp)
  · simp only [Except.ok.injEq] at h
    subst h
    exact ⟨rfl, rfl⟩

theorem candidates_pairwise (p : SwingParams) (m : List ℚ) (thr : ℚ) :
    List.Pairwise (· < ·) (candidates p m thr) :=
  (List.pairwise_lt_range m.length).sublist (List.filter_sublist _)

theorem candidates_mem (p : SwingParams) (m : List ℚ) (thr : ℚ) (i : ℕ)
    (h : i ∈ candidates p m thr) :
    i < m.length ∧ revAt (trendOf p m) i = true ∧ thr < |m.getD i 0| := by
  simp only [candidates, List.mem_filter, List.mem_range, Bool.and_eq_true,
    decide_eq_true_eq] at h
  exact ⟨h.1, h.2.1, h.2.2⟩

theorem compress_pairwise (m : List ℚ) (l : List ℕ)
    (h : List.Pairwise (· < ·) l) :
    List.Pairwise (· < ·) (compress_consecutive_by_max_abs m l) := by
  rw [compress_consecutive_by_max_abs, sortedSelf l h]
  exact compressGo_pairwise m l h

theorem compress_subset (m : List ℚ) (l : List ℕ)
    (h : List.Pairwise (· < ·) l) :
    ∀ y ∈ compress_consecutive_by_max_abs m l, y ∈ l := by
  rw [compress_consecutive_by_max_abs, sortedSelf l h]
  exact compressGo_sub m l

theorem keep_pos_subset_candidates (p : SwingParams) (m : List ℚ)
    (r : SwingResult) (h : detect_swings m p = .ok r) :
    ∀ q ∈ r.swing_idx, q ∈ candidates p m r.amp_thr := by
  obtain ⟨hidx, hthr⟩ := detect_swings_ok_eq p m r h
  intro q hq
  rw [hidx, keepOf, apply_cooldown_keep_max_abs] at hq
  rw [hthr]
  set ks := compress_consecutive_by_max_abs m (candidates p m (ampThrOf p m))
    with hks
  have hkp : List.Pairwise (· < ·) ks :=
    compress_pairwise m _ (candidates_pairwise p m _)
  rw [sortedSelf _ hkp] at hq
  have hsub : ∀ y ∈ ks, y ∈ candidates p m (ampThrOf p m) :=
    compress_subset m _ (candidates_pairwise p m _)
  rcases hcc : ks with _ | ⟨x, xs⟩
  · rw [hcc] at hq
    simp at hq
  · rw [hcc] at hq
    obtain ⟨-, hmem⟩ := cooldownGo_spec m p.cool xs x (hcc ▸ hkp)
    exact hsub q (hcc ▸ (hmem q hq).2)

/-- C3: for every momentum series and parameter value, the kept-position
list of `detect_swings` is strictly increasing, has no duplicates, and
every pair of consecutive kept positions is separated by at least
`cool`. -/
theorem detect_swings_cooldown_invariant (p : SwingParams) (m : List ℚ)
    (r : SwingResult) (h : detect_swings m p = .ok r) :
    List.Pairwise (· < ·) r.swing_idx ∧ r.swing_idx.Nodup ∧
    List.Chain' (fun a b => p.cool ≤ b - a) r.swing_idx := by
  obtain ⟨hidx, -⟩ := detect_swings_ok_eq p m r h
  set ks := compress_consecutive_by_max_abs m (candidates p m (ampThrOf p m))
    with hks
  have hkp : List.Pairwise (· < ·) ks :=
    compress_pairwise m _ (candidates_pairwise p m _)
  rw [hidx, keepOf, apply_cooldown_keep_max_abs, sortedSelf _ hkp]
  rcases hcc : ks with _ | ⟨x, xs⟩
  · simp
  · obtain ⟨hch, -⟩ := cooldownGo_spec m p.cool xs x (hcc ▸ hkp)
    haveI : IsTrans ℕ (fun a b => a < b ∧ p.cool ≤ b - a) :=
      ⟨fun a b c hab hbc => ⟨lt_trans hab.1 hbc.1, by omega⟩⟩
    have hpw : List.Pairwise (fun a b => a < b ∧ p.cool ≤ b - a)
        (cooldownGo m p.cool x xs) := List.chain'_iff_pairwise.mp hch
    have hlt : List.Pairwise (· < ·) (cooldownGo m p.cool x xs) :=
      hpw.imp (fun hab => hab.1)
    exact ⟨hlt, hlt.imp ne_of_lt, hch.imp (fun _ _ hab => hab.2)⟩

theorem trend_eval_A :
    trendOf ⟨1, 1 / 4, 2, true⟩ [0, 2, 4, 2, 0, -2, -4, -2, 0, 2, 4]
      = [none, some 2, some 2, some (-2), some (-2), some (-2), some (-2),
         some 2, some 2, some 2, some 2] := by
  norm_num [trendOf, fillZero, ffillFrom, trendRaw, diffs, ewm_momentum,
    ewmFrom]

theorem thr_eval_A :
    ampThrOf ⟨1, 1 / 4, 2, true⟩ [0, 2, 4, 2, 0, -2, -4, -2, 0, 2, 4] = 1 := by
  norm_num [ampThrOf, quantileLinear, List.insertionSort, List.orderedInsert,
    (show Int.toNat 2 = 2 from rfl)]

theorem cand_eval_A :
    candidates ⟨1, 1 / 4, 2, true⟩ [0, 2, 4, 2, 0, -2, -4, -2, 0, 2, 4] 1
      = [3, 7] := by
  have ht := trend_eval_A
  norm_num [candidates, ht, revAt, optGT, optLT, optLE, optGE, List.filter,
    (show List.range 11 = [0, 1, 2, 3, 4, 5, 6, 7, 8, 9, 10] from rfl)]

set_option maxHeartbeats 1000000 in
theorem keep_eval_A :
    keepOf ⟨1, 1 / 4, 2, true⟩ [0, 2, 4, 2, 0, -2, -4, -2, 0, 2, 4]
      = [3, 7] := by
  rw [keepOf, thr_eval_A, cand_eval_A]
  norm_num [compress_consecutive_by_max_abs, compressGo, takeRun, maxAbsFirst,
    apply_cooldown_keep_max_abs, cooldownGo, List.insertionSort,
    List.orderedInsert]

theorem detect_swings_eval_A :
    detect_swings [0, 2, 4, 2, 0, -2, -4, -2, 0, 2, 4] ⟨1, 1 / 4, 2, true⟩
      = .ok ⟨[0, 0, 0, 1, 0, 0, 0, 1, 0, 0, 0], [3, 7], 1⟩ := by
  rw [detect_swings, if_neg (by norm_num)]
  simp only [keep_eval_A, thr_eval_A]
  norm_num [(show List.range 11 = [0, 1, 2, 3, 4, 5, 6, 7, 8, 9, 10] from rfl)]

/-- Witness for C3 at a concrete input with two kept positions. -/
theorem detect_swings_cooldown_invariant_witness :
    List.Pairwise (· < ·) [3, 7] ∧ List.Nodup [3, 7] ∧
    List.Chain' (fun a b => 2 ≤ b - a) [3, 7] :=
  detect_swings_cooldown_invariant ⟨1, 1 / 4, 2, true⟩
    [0, 2, 4, 2, 0, -2, -4, -2, 0, 2, 4]
    ⟨[0, 0, 0, 1, 0, 0, 0, 1, 0, 0, 0], [3, 7], 1⟩ detect_swings_eval_A

/-- C9 (implicit): every position kept by `detect_swings` has momentum
magnitude strictly above the returned amplitude threshold: the amplitude
filter survives run compression and cooldown, which only select among
candidates. -/
theorem detect_swings_amp_invariant (p : SwingParams) (m : List ℚ)
    (r : SwingResult) (h : detect_swings m p = .ok r) :
    ∀ q ∈ r.swing_idx, r.amp_thr < |m.getD q 0| := by
  intro q hq
  exact (candidates_mem p m r.amp_thr q
    (keep_pos_subset_candidates p m r h q hq)).2.2

/-- Witness for C9: at the concrete input the kept position 3 has
`|m[3]| = 2 > 1 = amp_thr`. -/
theorem detect_swings_amp_invariant_witness :
    (1 : ℚ) < |([0, 2, 4, 2, 0, -2, -4, -2, 0, 2, 4] : List ℚ).getD 3 0| :=
  detect_swings_amp_invariant ⟨1, 1 / 4, 2, true⟩
    [0, 2, 4, 2, 0, -2, -4, -2, 0, 2, 4]
    ⟨[0, 0, 0, 1, 0, 0, 0, 1, 0, 0, 0], [3, 7], 1⟩ detect_swings_eval_A 3
    (by norm_num)

theorem trendOf_head (p : SwingParams) (m : List ℚ) :
    (trendOf p m).getD 0 none = none := by
  rcases m with _ | ⟨x, xs⟩
  · rw [trendOf]
    split <;> simp [trendRaw, fillZero, ffillFrom]
  · rw [trendOf]
    split <;> simp [trendRaw, fillZero, ffillFrom]

theorem revAt_le_one (p : SwingParams) (m : List ℚ) (i : ℕ) (hi : i ≤ 1) :
    revAt (trendOf p m) i = false := by
  have h0 : (trendOf p m).getD 0 none = none := trendOf_head p m
  rcases Nat.le_one_iff_eq_zero_or_eq_one.mp hi with h | h <;> subst h
  · simp only [revAt, if_pos rfl]
    simp [optGT, optLT]
  · simp only [revAt, if_neg (by omega : ¬ (1 : ℕ) = 0), Nat.sub_self]
    rw [h0]
    simp [optGT, optLT]

/-- C10 (implicit): positions 0 and 1 never appear in the kept-position
list of `detect_swings` — the slope is undefined at position 0, so the
reversal test cannot fire before position 2. -/
theorem detect_swings_no_first_two (p : SwingParams) (m : List ℚ)
    (r : SwingResult) (h : detect_swings m p = .ok r) :
    0 ∉ r.swing_idx ∧ 1 ∉ r.swing_idx := by
  constructor <;> intro hmem
  · have hc := candidates_mem p m r.amp_thr 0
      (keep_pos_subset_candidates p m r h 0 hmem)
    rw [revAt_le_one p m 0 (by omega)] at hc
    exact absurd hc.2.1 (by simp)
  · have hc := candidates_mem p m r.amp_thr 1
      (keep_pos_subset_candidates p m r h 1 hmem)
    rw [revAt_le_one p m 1 (by omega)] at hc
    exact absurd hc.2.1 (by simp)

/-- Witness for C10 at the concrete input whose kept positions are 3
and 7. -/
theorem detect_swings_no_first_two_witness :
    0 ∉ ([3, 7] : List ℕ) ∧ 1 ∉ ([3, 7] : List ℕ) :=
  detect_swings_no_first_two ⟨1, 1 / 4, 2, true⟩
    [0, 2, 4, 2, 0, -2, -4, -2, 0, 2, 4]
    ⟨[0, 0, 0, 1, 0, 0, 0, 1, 0, 0, 0], [3, 7], 1⟩ detect_swings_eval_A

theorem runs_flatten : ∀ (l : List ℕ), (runs l).flatten = l := by
  intro l
  induction l using runs.induct with
  | case1 => simp [runs]
  | case2 x xs ih =>
    rw [runs, List.flatten_cons, ih, List.cons_append, takeRun_append]

theorem compressGo_eq_runs (m : List ℚ) : ∀ (l : List ℕ),
    compressGo m l
      = (runs l).map (fun g => maxAbsFirst m (g.headD 0) g.tail) := by
  intro l
  induction l using runs.induct with
  | case1 => simp [runs, compressGo]
  | case2 x xs ih =>
    rw [runs, compressGo, List.map_cons, ih]
    rfl

theorem runs_nonempty_consec : ∀ (l : List ℕ), ∀ g ∈ runs l,
    g ≠ [] ∧ List.Chain' (fun a b => b = a + 1) g := by
  intro l
  induction l using runs.induct with
  | case1 => simp [runs]
  | case2 x xs ih =>
    intro g hg
    rw [runs] at hg
    rcases List.mem_cons.mp hg with h | h
    · subst h
      exact ⟨by simp, takeRun_chain xs x⟩
    · exact ih g h

theorem runs_elem_subset (l : List ℕ) : ∀ g ∈ runs l, ∀ a ∈ g, a ∈ l := by
  intro g hg a ha
  have h : a ∈ (runs l).flatten := List.mem_flatten.mpr ⟨g, hg, ha⟩
  rwa [runs_flatten] at h

theorem runs_sep : ∀ (l : List ℕ), List.Pairwise (· < ·) l →
    List.Chain' (fun g h => ∀ a ∈ g, ∀ b ∈ h, a + 1 < b) (runs l) := by
  intro l
  induction l using runs.induct with
  | case1 => intro _; simp [runs]
  | case2 x xs ih =>
    intro hp
    rw [runs, List.chain'_cons']
    constructor
    · intro h hh b hb c hc
      have hmem : h ∈ runs (takeRun x xs).2 := List.mem_of_mem_head? hh
      have hcrest : c ∈ (takeRun x xs).2 :=
        runs_elem_subset _ h hmem c hc
      exact takeRun_sep xs x hp c hcrest b hb
    · exact ih (hp.sublist ((takeRun_snd_sublist x xs).cons x))

set_option maxHeartbeats 1000000 in
theorem maxAbsFirst_spec (m : List ℚ) : ∀ (l : List ℕ) (b : ℕ),
    List.Pairwise (· < ·) (b :: l) →
    (maxAbsFirst m b l = b ∨
      (maxAbsFirst m b l ∈ l ∧ |m.getD b 0| < |m.getD (maxAbsFirst m b l) 0|)) ∧
    (∀ y ∈ b :: l, |m.getD y 0| ≤ |m.getD (maxAbsFirst m b l) 0|) ∧
    (∀ y ∈ b :: l, |m.getD y 0| = |m.getD (maxAbsFirst m b l) 0| →
      maxAbsFirst m b l ≤ y) := by
  intro l
  induction l with
  | nil =>
    intro b _
    refine ⟨Or.inl rfl, ?_, ?_⟩
    · intro y hy
      rw [List.mem_singleton] at hy
      subst hy
      simp [maxAbsFirst]
    · intro y hy _
      rw [List.mem_singleton] at hy
      subst hy
      simp [maxAbsFirst]
  | cons x xs ih =>
    intro b hp
    have hbx : b < x := (List.pairwise_cons.mp hp).1 x (List.mem_cons_self x xs)
    by_cases hc : |m.getD b 0| < |m.getD x 0|
    · rw [maxAbsFirst, if_pos hc]
      obtain ⟨h1, h2, h3⟩ := ih x (List.Pairwise.of_cons hp)
      have hxr : |m.getD x 0| ≤ |m.getD (maxAbsFirst m x xs) 0| :=
        h2 x (List.mem_cons_self x xs)
      refine ⟨?_, ?_, ?_⟩
      · right
        rcases h1 with h | h
        · exact ⟨by rw [h]; exact List.mem_cons_self x xs, by rw [h]; exact hc⟩
        · exact ⟨List.mem_cons_of_mem x h.1, lt_trans hc h.2⟩
      · intro y hy
        rcases List.mem_cons.mp hy with h | h
        · rw [h]
          exact le_of_lt (lt_of_lt_of_le hc hxr)
        · exact h2 y h
      · intro y hy heq
        rcases List.mem_cons.mp hy with h | h
        · subst h
          exact absurd heq (ne_of_lt (lt_of_lt_of_le hc hxr))
        · exact h3 y h heq
    · rw [maxAbsFirst, if_neg hc]
      have hp2 : List.Pairwise (· < ·) (b :: xs) :=
        hp.sublist (List.Sublist.cons₂ b (List.sublist_cons_self x xs))
      obtain ⟨h1, h2, h3⟩ := ih b hp2
      have hbr : |m.getD b 0| ≤ |m.getD (maxAbsFirst m b xs) 0| :=
        h2 b (List.mem_cons_self b xs)
      have hxb : |m.getD x 0| ≤ |m.getD b 0| := not_lt.mp hc
      refine ⟨?_, ?_, ?_⟩
      · rcases h1 with h | h
        · exact Or.inl h
        · exact Or.inr ⟨List.mem_cons_of_mem x h.1, h.2⟩
      · intro y hy
        rcases List.mem_cons.mp hy with h | h
        · rw [h]
          exact hbr
        · rcases List.mem_cons.mp h with h4 | h4
          · rw [h4]
            exact le_trans hxb hbr
          · exact h2 y (List.mem_cons_of_mem b h4)
      · intro y hy heq
        rcases List.mem_cons.mp hy with h | h
        · rw [h] at heq ⊢
          exact h3 b (List.mem_cons_self b xs) heq
        · rcases List.mem_cons.mp h with h4 | h4
          · rw [h4] at heq ⊢
            rcases h1 with hrb | hrm
            · rw [hrb]
              exact le_of_lt hbx
            · exfalso
              have := hrm.2
              linarith [heq, hxb]
          · exact h3 y (List.mem_cons_of_mem b h4) heq

/-- C5: run compression groups the (sorted) surviving candidate
positions into maximal runs of consecutive integers and keeps from each
run exactly one representative — the earliest position of maximum
momentum magnitude in the run. -/
theorem compress_runs_spec (m : List ℚ) (pos : List ℕ)
    (hp : List.Pairwise (· < ·) pos) :
    compress_consecutive_by_max_abs m pos
      = (runs pos).map (fun g => maxAbsFirst m (g.headD 0) g.tail) ∧
    (runs pos).flatten = pos ∧
    (∀ g ∈ runs pos, g ≠ [] ∧ List.Chain' (fun a b => b = a + 1) g) ∧
    List.Chain' (fun g h => ∀ a ∈ g, ∀ b ∈ h, a + 1 < b) (runs pos) ∧
    (∀ g ∈ runs pos,
      maxAbsFirst m (g.headD 0) g.tail ∈ g ∧
      (∀ y ∈ g, |m.getD y 0| ≤ |m.getD (maxAbsFirst m (g.headD 0) g.tail) 0|) ∧
      (∀ y ∈ g, |m.getD y 0| = |m.getD (maxAbsFirst m (g.headD 0) g.tail) 0| →
        maxAbsFirst m (g.headD 0) g.tail ≤ y)) := by
  refine ⟨?_, runs_flatten pos, runs_nonempty_consec pos, runs_sep pos hp, ?_⟩
  · rw [compress_consecutive_by_max_abs, sortedSelf pos hp, compressGo_eq_runs]
  · intro g hg
    have hpf : List.Pairwise (· < ·) (runs pos).flatten := by
      rwa [runs_flatten]
    have hgp : List.Pairwise (· < ·) g :=
      (List.pairwise_flatten.mp hpf).1 g hg
    obtain ⟨hne, -⟩ := runs_nonempty_consec pos g hg
    rcases g with _ | ⟨h0, t⟩
    · exact absurd rfl hne
    · simp only [List.headD_cons, List.tail_cons]
      obtain ⟨-, h2, h3⟩ := maxAbsFirst_spec m t h0 hgp
      exact ⟨maxAbsFirst_mem m t h0, h2, h3⟩

/-- Witness for C5: the single run `[2, 3, 4]` with magnitudes 5, 9, 5
compresses to exactly its maximum-magnitude position 3. -/
theorem compress_runs_spec_witness :
    compress_consecutive_by_max_abs [0, 0, 5, 9, 5] [2, 3, 4]
      = (runs [2, 3, 4]).map
          (fun g => maxAbsFirst [0, 0, 5, 9, 5] (g.headD 0) g.tail) :=
  (compress_runs_spec [0, 0, 5, 9, 5] [2, 3, 4] (by decide)).1

theorem trend_eval_B :
    trendOf ⟨1, 1 / 2, 2, true⟩ [0, 1, 2, 1, 0, -1, -2, -1, 0, 1, 2]
      = [none, some 1, some 1, some (-1), some (-1), some (-1), some (-1),
         some 1, some 1, some 1, some 1] := by
  norm_num [trendOf, fillZero, ffillFrom, trendRaw, diffs, ewm_momentum,
    ewmFrom]

theorem thr_eval_B :
    ampThrOf ⟨1, 1 / 2, 2, true⟩ [0, 1, 2, 1, 0, -1, -2, -1, 0, 1, 2] = 1 := by
  norm_num [ampThrOf, quantileLinear, List.insertionSort, List.orderedInsert,
    (show Int.toNat 5 = 5 from rfl)]

theorem cand_eval_B :
    candidates ⟨1, 1 / 2, 2, true⟩ [0, 1, 2, 1, 0, -1, -2, -1, 0, 1, 2] 1
      = [] := by
  have ht := trend_eval_B
  norm_num [candidates, ht, revAt, optGT, optLT, optLE, optGE, List.filter,
    (show List.range 11 = [0, 1, 2, 3, 4, 5, 6, 7, 8, 9, 10] from rfl)]

theorem keep_eval_B :
    keepOf ⟨1, 1 / 2, 2, true⟩ [0, 1, 2, 1, 0, -1, -2, -1, 0, 1, 2] = [] := by
  rw [keepOf, thr_eval_B, cand_eval_B]
  norm_num [compress_consecutive_by_max_abs, compressGo,
    apply_cooldown_keep_max_abs, List.insertionSort]

/-- Counterexample for C1: on the spec's scenario input the detector
returns an EMPTY event list — the sign-flip candidates at positions 3
and 7 have `|m| = 1 = amp_thr` and the strict amplitude filter
`|m| > amp_thr` removes both — contradicting the claimed non-empty
result. -/
theorem detect_swings_scenario_cex :
    detect_swings [0, 1, 2, 1, 0, -1, -2, -1, 0, 1, 2] ⟨1, 1 / 2, 2, true⟩
      = .ok ⟨[0, 0, 0, 0, 0, 0, 0, 0, 0, 0, 0], [], 1⟩ := by
  rw [detect_swings, if_neg (by norm_num)]
  simp only [keep_eval_B, thr_eval_B]
  norm_num [(show List.range 11 = [0, 1, 2, 3, 4, 5, 6, 7, 8, 9, 10] from rfl)]

/-- C1 (amended): in the scenario `momentum = [0,1,2,1,0,−1,−2,−1,0,1,2]`
with `trend_span = 1`, `amp_q = 1/2`, `cool = 2`, the smoothed trend flips
sign at positions 3 and 7 — adjacent to the local maximum at 2 and local
minimum at 6 — but `amp_thr = 1` and the momentum magnitude at those
positions is exactly 1, so the strict filter `|m| > amp_thr` leaves no
candidate and `detect_swings` deterministically returns an empty event
list, all-zero flags, and threshold 1. -/
theorem detect_swings_scenario :
    revAt (trendOf ⟨1, 1 / 2, 2, true⟩ [0, 1, 2, 1, 0, -1, -2, -1, 0, 1, 2]) 3
      = true ∧
    revAt (trendOf ⟨1, 1 / 2, 2, true⟩ [0, 1, 2, 1, 0, -1, -2, -1, 0, 1, 2]) 7
      = true ∧
    |([0, 1, 2, 1, 0, -1, -2, -1, 0, 1, 2] : List ℚ).getD 3 0| = 1 ∧
    |([0, 1, 2, 1, 0, -1, -2, -1, 0, 1, 2] : List ℚ).getD 7 0| = 1 ∧
    ampThrOf ⟨1, 1 / 2, 2, true⟩ [0, 1, 2, 1, 0, -1, -2, -1, 0, 1, 2] = 1 ∧
    candidates ⟨1, 1 / 2, 2, true⟩ [0, 1, 2, 1, 0, -1, -2, -1, 0, 1, 2] 1
      = [] ∧
    detect_swings [0, 1, 2, 1, 0, -1, -2, -1, 0, 1, 2] ⟨1, 1 / 2, 2, true⟩
      = .ok ⟨[0, 0, 0, 0, 0, 0, 0, 0, 0, 0, 0], [], 1⟩ := by
  refine ⟨?_, ?_, by norm_num, by norm_num, thr_eval_B, cand_eval_B, ?_⟩
  · norm_num [revAt, trend_eval_B, optGT, optLT, optLE, optGE]
  · norm_num [revAt, trend_eval_B, optGT, optLT, optLE, optGE]
  · rw [detect_swings, if_neg (by norm_num)]
    simp only [keep_eval_B, thr_eval_B]
    norm_num [(show List.range 11 = [0, 1, 2, 3, 4, 5, 6, 7, 8, 9, 10] from rfl)]

end Tennis
